import Mathlib

/-!
# Shallow embedding of the FF3-1 format-preserving encryption engine (ff3.py)

Strings are embedded as `List Char`, byte strings as `List Nat` (each entry a
byte value), arbitrary-precision integers as `Nat` (with `Int` where the source
subtracts before taking a modulus).  Code that can raise a Python exception is
embedded as `Except Err` / `Option`-valued.  The AES-ECB primitive is external
to the source, so it is carried as an arbitrary function from byte lists to
byte lists; no property of it is assumed anywhere.
-/

namespace FF3

/-- The distinct `ValueError` reasons raised by ff3.py, distinguished by their
message text in the source. -/
inductive Err where
  | invalidHex          -- bytes.fromhex on a non-hex or odd-length string
  | keyLen              -- "key length is ... but must be 128, 192, or 256 bits"
  | msgLen              -- "message length ... is not within min ... and max ... bounds"
  | tweakLen            -- "tweak length ... invalid ..."
  | charNotInAlphabet   -- str.index failure inside decode_int
  | overflow            -- int.to_bytes OverflowError inside calculateP
  | radixRange          -- "radix must be at least 2."
  | alphabetShort       -- "alphabet must contain at least two characters."
  | alphabetRadixMismatch  -- "The alphabet has length ... which conflicts ..."
  | radixDefaultTooBig  -- "For radix >62 please specify a custom alphabet."
  | alphabetDup         -- "The specified alphabet has duplicate characters."
  | radixMax            -- "The current radix ... exceeds the maximum allowed radix ..."
  deriving DecidableEq, Repr

/-- `DOMAIN_MIN = 1_000_000` (ff3.py line 29). -/
def DOMAIN_MIN : Nat := 1000000

/-- `MAX_RADIX = 2 ** 16` (ff3.py line 30). -/
def MAX_RADIX : Nat := 2 ^ 16

/-- `NUM_ROUNDS = 8` (ff3.py line 31). -/
def NUM_ROUNDS : Nat := 8

/-- `BLOCK_SIZE = 16` (ff3.py line 32). -/
def BLOCK_SIZE : Nat := 16

/-- `TWEAK_LEN = 8` (ff3.py line 33). -/
def TWEAK_LEN : Nat := 8

/-- `TWEAK_LEN_NEW = 7` (ff3.py line 34). -/
def TWEAK_LEN_NEW : Nat := 7

/-- `HALF_TWEAK_LEN = TWEAK_LEN // 2` (ff3.py line 35). -/
def HALF_TWEAK_LEN : Nat := TWEAK_LEN / 2

/-- `DEFAULT_ALPHABET = string.digits + string.ascii_lowercase +
string.ascii_uppercase` (ff3.py line 36). -/
def DEFAULT_ALPHABET : List Char :=
  "0123456789abcdefghijklmnopqrstuvwxyzABCDEFGHIJKLMNOPQRSTUVWXYZ".toList

/-- Python `alphabet.index(char)`: position of the first occurrence, `none`
models the `ValueError` raised when the character is absent. -/
def charIndex (alphabet : List Char) (c : Char) : Option Nat :=
  match alphabet with
  | [] => none
  | a :: rest => if a = c then some 0 else (charIndex rest c).map (· + 1)

/-- The loop body of `decode_int` (ff3.py lines 395-399) applied to the
already-reversed string: the character at position `idx` of the reversed
string contributes `alphabet.index(char) * base ** (strlen - (idx + 1))`,
and `strlen - (idx + 1)` is exactly the number of characters that follow it. -/
def decodeAux (alphabet : List Char) : List Char → Option Nat
  | [] => some 0
  | c :: rest =>
    match charIndex alphabet c, decodeAux alphabet rest with
    | some d, some n => some (d * alphabet.length ^ rest.length + n)
    | _, _ => none

/-- `decode_int(string, alphabet)` (ff3.py lines 384-401): iterates over
`reverse_string(string)` accumulating `index * base ** (strlen - (idx+1))`. -/
def decode_int (s alphabet : List Char) : Option Nat :=
  decodeAux alphabet s.reverse

/-- Total value function used in specifications: the base-`|alphabet|` value of
`s` read with its FIRST character as the LEAST significant digit.  Under the
hypothesis that every character occurs in the alphabet, `decode_int` returns
exactly this value (proved below). -/
def lsVal (alphabet : List Char) : List Char → Nat
  | [] => 0
  | c :: rest => (charIndex alphabet c).getD 0 + alphabet.length * lsVal alphabet rest

/-- Total companion of `decodeAux`: most-significant-first value of a string. -/
def msVal (alphabet : List Char) : List Char → Nat
  | [] => 0
  | c :: rest => (charIndex alphabet c).getD 0 * alphabet.length ^ rest.length +
      msVal alphabet rest

/-- Python `str(...)` applied to a `str` returns the string itself.  This models
the expression `str(alphabet)` on ff3.py line 450 literally. -/
def pyStr (s : List Char) : List Char := s

/-- Second half of `validate_radix_and_alphabet` (ff3.py lines 450-463), entered
once the alphabet is defined: the duplicate-character test compares
`len(alphabet)` with `len(str(alphabet))`, then the radix is defaulted to the
alphabet length and checked against `MAX_RADIX`. -/
def validateStep2 (radix : Option Nat) (alphabet : List Char) :
    Except Err (Nat × List Char) :=
  if alphabet.length ≠ (pyStr alphabet).length then .error Err.alphabetDup
  else
    let r := radix.getD alphabet.length
    if r > MAX_RADIX then .error Err.radixMax
    else .ok (r, alphabet)

/-- `validate_radix_and_alphabet(radix, alphabet)` (ff3.py lines 403-463).
The `isinstance` checks are not represented: in the embedding the arguments
already have the right types. -/
def validate_radix_and_alphabet (radix : Option Nat)
    (alphabet : Option (List Char)) : Except Err (Nat × List Char) :=
  if (radix.getD 2) < 2 then .error Err.radixRange
  else if ((alphabet.map List.length).getD 2) < 2 then .error Err.alphabetShort
  else if radix.isSome && alphabet.isSome && (alphabet.map List.length != radix) then
    .error Err.alphabetRadixMismatch
  else
    match alphabet with
    | none =>
      let r := radix.getD 10
      if r > DEFAULT_ALPHABET.length then .error Err.radixDefaultTooBig
      else validateStep2 (some r) (DEFAULT_ALPHABET.take r)
    | some a => validateStep2 radix a

/-- The digit-emitting loop of `encode_int_r` (ff3.py lines 373-377):
`while n >= base: n, b = divmod(n, base); x += alphabet[b]` followed by
`x += alphabet[n]`.  The loop strictly decreases `n` on every iteration
(`base ≥ 2` is guaranteed by the validation that precedes it), so a fuel of
`n` steps is always sufficient; the fuel-0 fallback is reached only at `n = 0`,
where it agrees with the `n < base` exit. -/
def encodeDigits (base : Nat) (alphabet : List Char) : Nat → Nat → List Char
  | 0, n => [alphabet.getD n ' ']
  | fuel + 1, n =>
    if n < base then [alphabet.getD n ' ']
    else alphabet.getD (n % base) ' ' :: encodeDigits base alphabet fuel (n / base)

/-- `encode_int_r(n, base, length, alphabet)` (ff3.py lines 357-382): validates
the pair, emits the digits least-significant-first, then right-pads with
`alphabet[0]` to `length` characters (`str.ljust`). -/
def encode_int_r (n base length : Nat) (alphabet : List Char) :
    Except Err (List Char) :=
  match validate_radix_and_alphabet (some base) (some alphabet) with
  | .error e => .error e
  | .ok (base, alphabet) =>
    let x := encodeDigits base alphabet n n
    .ok (x ++ List.replicate (length - x.length) (alphabet.getD 0 ' '))

/-- Value of one hexadecimal digit, as accepted by `bytes.fromhex`. -/
def hexDigitVal (c : Char) : Option Nat :=
  if '0' ≤ c ∧ c ≤ '9' then some (c.toNat - '0'.toNat)
  else if 'a' ≤ c ∧ c ≤ 'f' then some (c.toNat - 'a'.toNat + 10)
  else if 'A' ≤ c ∧ c ≤ 'F' then some (c.toNat - 'A'.toNat + 10)
  else none

/-- `bytes.fromhex`: pairs of hex digits, `none` models the `ValueError` on an
odd-length or non-hex string.  (The whitespace-skipping of `bytes.fromhex` is
not represented; no claim involves whitespace.) -/
def fromHex : List Char → Option (List Nat)
  | [] => some []
  | [_] => none
  | c1 :: c2 :: rest =>
    match hexDigitVal c1, hexDigitVal c2, fromHex rest with
    | some h, some l, some bs => some ((16 * h + l) :: bs)
    | _, _, _ => none

/-- `int.from_bytes(S, byteorder='big')`. -/
def beVal (bs : List Nat) : Nat := bs.foldl (fun acc b => 256 * acc + b) 0

/-- `n.to_bytes(len, "big")`: big-endian byte string of fixed length, `none`
models the `OverflowError` when `n` does not fit. -/
def toBytesBE (len n : Nat) : Option (List Nat) :=
  if n < 256 ^ len then
    some ((List.range len).map (fun i => n / 256 ^ (len - 1 - i) % 256))
  else none

/-- `FF3Cipher.calculateP(i, alphabet, W, B)` (ff3.py lines 92-112):
`P[0..2] = W[0..2]`, `P[3] = W[3] ^ i`, and the remaining 12 bytes are
`decode_int(B, alphabet).to_bytes(12, "big")`. -/
def calculateP (i : Nat) (alphabet : List Char) (W : List Nat) (B : List Char) :
    Except Err (List Nat) :=
  match decode_int B alphabet with
  | none => .error Err.charNotInAlphabet
  | some val =>
    match toBytesBE 12 val with
    | none => .error Err.overflow
    | some BBytes =>
      .ok ([W.getD 0 0, W.getD 1 0, W.getD 2 0, (W.getD 3 0) ^^^ i] ++ BBytes)

/-- Tweak expansion, inlined identically in `encrypt_with_tweak`
(ff3.py lines 182-195) and `decrypt_with_tweak` (lines 288-301).
For 8 bytes: `Tl = tweak[:4]`, `Tr = tweak[4:]`.
For 7 bytes: `Tl = tweak[:4]` with `Tl[3] &= 0xF0`, and
`Tr = (int(tweak[4:].hex(), 16) << 4).to_bytes(4, "big")` followed by
`Tr[3] = tweak[6] << 4 & 0xF0`.  (`int(tweak[4:].hex(), 16)` is the big-endian
value of the last three bytes; it is below 2^24, so the 4-byte encoding cannot
overflow.) -/
def expand_tweak (tweakBytes : List Nat) : Except Err (List Nat × List Nat) :=
  if tweakBytes.length = TWEAK_LEN then
    .ok (tweakBytes.take HALF_TWEAK_LEN, tweakBytes.drop HALF_TWEAK_LEN)
  else if tweakBytes.length = TWEAK_LEN_NEW then
    let tl := [tweakBytes.getD 0 0, tweakBytes.getD 1 0, tweakBytes.getD 2 0,
               (tweakBytes.getD 3 0) &&& 0xF0]
    let v := 65536 * tweakBytes.getD 4 0 + 256 * tweakBytes.getD 5 0 +
             tweakBytes.getD 6 0
    let s := v <<< 4
    let tr := [s / 2 ^ 24 % 256, s / 2 ^ 16 % 256, s / 2 ^ 8 % 256,
               (tweakBytes.getD 6 0 <<< 4) &&& 0xF0]
    .ok (tl, tr)
  else .error Err.tweakLen

/-- `minlen_and_maxlen(radix)` (ff3.py lines 465-477).  The source computes
`minLen = math.ceil(math.log(DOMAIN_MIN, radix))` and
`maxLen = 2 * math.floor(96 / math.log2(radix))` in double precision.
Mathematically `ceil(log_radix 10^6)` is `Nat.clog radix 10^6` and
`floor(96 / log2 radix) = floor(log_radix 2^96)` is `Nat.log radix (2^96)`,
and for every radix appearing in the claims the double-precision results were
checked to be well clear of the rounding boundaries (e.g. radix 10 yields
5.9999999999999991, which ceils to 6 = clog 10 10^6), so the exact integer
formulas below embed the source faithfully. -/
def minlen_and_maxlen (radix : Nat) : Nat × Nat :=
  (Nat.clog radix DOMAIN_MIN, 2 * Nat.log radix (2 ^ 96))

/-- The cipher instance built by `FF3Cipher.__init__` (ff3.py lines 69-90).
`aesCipher` stands for the `AES.new(reverse_string(keybytes), AES.MODE_ECB)`
object: a single-block encryption function under the byte-reversed key. -/
structure FF3Cipher where
  tweak : List Char
  radix : Nat
  alphabet : List Char
  minLen : Nat
  maxLen : Nat
  aesCipher : List Nat → List Nat

/-- `FF3Cipher.__init__(key, tweak, radix, alphabet)` (ff3.py lines 69-90).
`aesNew` models the external `AES.new(·, AES.MODE_ECB)` constructor, mapping
the (reversed) key bytes to a block-encryption function; the source applies it
to `reverse_string(keybytes)`.  The tweak is stored exactly as supplied and
never examined. -/
def FF3Cipher.init (aesNew : List Nat → List Nat → List Nat)
    (key tweak : List Char) (radix : Option Nat) (alphabet : Option (List Char)) :
    Except Err FF3Cipher :=
  match validate_radix_and_alphabet radix alphabet with
  | .error e => .error e
  | .ok (r, a) =>
    match fromHex key with
    | none => .error Err.invalidHex
    | some keybytes =>
      let mm := minlen_and_maxlen r
      if keybytes.length = 16 ∨ keybytes.length = 24 ∨ keybytes.length = 32 then
        .ok { tweak := tweak, radix := r, alphabet := a,
              minLen := mm.1, maxLen := mm.2,
              aesCipher := aesNew keybytes.reverse }
      else .error Err.keyLen

/-- One encryption Feistel round, the body of the loop at ff3.py lines 211-249.
`m`/`W` select by parity of `i`; `P` is built from the `B` half; the AES value
is byte-reversed before and after; `c = (decode_int(A) + y) mod radix^m`
(`radix^m` is `modU` for even `i` and `modV` for odd `i`); and the halves swap
as `A, B = B, C`. -/
def encRound (radix : Nat) (alphabet : List Char) (aes : List Nat → List Nat)
    (u v : Nat) (Tl Tr : List Nat) (st : List Char × List Char) (i : Nat) :
    Except Err (List Char × List Char) :=
  let m := if i % 2 = 0 then u else v
  let W := if i % 2 = 0 then Tr else Tl
  match calculateP i alphabet W st.2 with
  | .error e => .error e
  | .ok P =>
    let S := (aes P.reverse).reverse
    let y := beVal S
    match decode_int st.1 alphabet with
    | none => .error Err.charNotInAlphabet
    | some c0 =>
      match encode_int_r ((c0 + y) % radix ^ m) radix m alphabet with
      | .error e => .error e
      | .ok C => .ok (st.2, C)

/-- One decryption Feistel round, the body of the loop at ff3.py lines 314-353:
`P` is built from the `A` half, `c = (decode_int(B) - y) mod radix^m` with
Python's mathematical modulo (embedded through `Int.emod`, which is
non-negative for a positive modulus), and the halves swap as `B, A = A, C`. -/
def decRound (radix : Nat) (alphabet : List Char) (aes : List Nat → List Nat)
    (u v : Nat) (Tl Tr : List Nat) (st : List Char × List Char) (i : Nat) :
    Except Err (List Char × List Char) :=
  let m := if i % 2 = 0 then u else v
  let W := if i % 2 = 0 then Tr else Tl
  match calculateP i alphabet W st.1 with
  | .error e => .error e
  | .ok P =>
    let S := (aes P.reverse).reverse
    let y := beVal S
    match decode_int st.2 alphabet with
    | none => .error Err.charNotInAlphabet
    | some b0 =>
      match encode_int_r ((((b0 : Int) - (y : Int)) % ((radix : Int) ^ m)).toNat)
          radix m alphabet with
      | .error e => .error e
      | .ok C => .ok (C, st.1)

/-- `FF3Cipher.encrypt_with_tweak(plaintext, tweak)` (ff3.py lines 158-251):
parse the tweak from hex, check the message length against
`[minLen, maxLen]`, check the tweak byte length, split at `u = ceil(n/2)`
(`math.ceil(n/2)` is exact in doubles for every representable length, hence
`(n+1)/2`), expand the tweak, run the eight rounds for `i` in `0..7`, and
return `A + B`. -/
def FF3Cipher.encrypt_with_tweak (c : FF3Cipher) (plaintext tweak : List Char) :
    Except Err (List Char) :=
  match fromHex tweak with
  | none => .error Err.invalidHex
  | some tweakBytes =>
    let n := plaintext.length
    if n < c.minLen ∨ n > c.maxLen then .error Err.msgLen
    else if ¬ (tweakBytes.length = TWEAK_LEN ∨ tweakBytes.length = TWEAK_LEN_NEW)
    then .error Err.tweakLen
    else
      let u := (n + 1) / 2
      let v := n - u
      let A := plaintext.take u
      let B := plaintext.drop u
      match expand_tweak tweakBytes with
      | .error e => .error e
      | .ok (Tl, Tr) =>
        match (List.range NUM_ROUNDS).foldlM
            (encRound c.radix c.alphabet c.aesCipher u v Tl Tr) (A, B) with
        | .error e => .error e
        | .ok st => .ok (st.1 ++ st.2)

/-- `FF3Cipher.decrypt_with_tweak(ciphertext, tweak)` (ff3.py lines 263-355):
identical framing, with the rounds iterated for `i` in `reversed(range(8))`. -/
def FF3Cipher.decrypt_with_tweak (c : FF3Cipher) (ciphertext tweak : List Char) :
    Except Err (List Char) :=
  match fromHex tweak with
  | none => .error Err.invalidHex
  | some tweakBytes =>
    let n := ciphertext.length
    if n < c.minLen ∨ n > c.maxLen then .error Err.msgLen
    else if ¬ (tweakBytes.length = TWEAK_LEN ∨ tweakBytes.length = TWEAK_LEN_NEW)
    then .error Err.tweakLen
    else
      let u := (n + 1) / 2
      let v := n - u
      let A := ciphertext.take u
      let B := ciphertext.drop u
      match expand_tweak tweakBytes with
      | .error e => .error e
      | .ok (Tl, Tr) =>
        match ((List.range NUM_ROUNDS).reverse).foldlM
            (decRound c.radix c.alphabet c.aesCipher u v Tl Tr) (A, B) with
        | .error e => .error e
        | .ok st => .ok (st.1 ++ st.2)

/-- `FF3Cipher.encrypt(plaintext)` (ff3.py lines 114-116). -/
def FF3Cipher.encrypt (c : FF3Cipher) (plaintext : List Char) :
    Except Err (List Char) :=
  c.encrypt_with_tweak plaintext c.tweak

/-- `FF3Cipher.decrypt(ciphertext)` (ff3.py lines 253-261). -/
def FF3Cipher.decrypt (c : FF3Cipher) (ciphertext : List Char) :
    Except Err (List Char) :=
  c.decrypt_with_tweak ciphertext c.tweak

/-! ## Lemmas about `charIndex` -/

lemma charIndex_lt {A : List Char} {c : Char} {i : Nat}
    (h : charIndex A c = some i) : i < A.length := by
  induction A generalizing i with
  | nil => simp [charIndex] at h
  | cons a t ih =>
    rw [charIndex] at h
    by_cases hac : a = c
    · simp only [if_pos hac, Option.some.injEq] at h
      simp [← h]
    · simp only [if_neg hac, Option.map_eq_some'] at h
      obtain ⟨j, hj, hji⟩ := h
      have := ih hj
      simp only [List.length_cons]
      omega

lemma charIndex_isSome_iff {A : List Char} {c : Char} :
    (charIndex A c).isSome = true ↔ c ∈ A := by
  induction A with
  | nil => simp [charIndex]
  | cons a t ih =>
    rw [charIndex]
    by_cases hac : a = c
    · simp [if_pos hac, hac]
    · simp only [if_neg hac, Option.isSome_map', List.mem_cons, ih]
      constructor
      · exact fun h => Or.inr h
      · rintro (h | h)
        · exact absurd h.symm hac
        · exact h

lemma charIndex_eq_none_iff {A : List Char} {c : Char} :
    charIndex A c = none ↔ c ∉ A := by
  rw [← charIndex_isSome_iff, Option.not_isSome_iff_eq_none]

lemma charIndex_some_of_mem {A : List Char} {c : Char} (h : c ∈ A) :
    charIndex A c = some ((charIndex A c).getD 0) := by
  have := charIndex_isSome_iff.mpr h
  obtain ⟨i, hi⟩ := Option.isSome_iff_exists.mp this
  simp [hi]

lemma charIndex_getD_lt {A : List Char} {c : Char} (h : c ∈ A) :
    (charIndex A c).getD 0 < A.length :=
  charIndex_lt (charIndex_some_of_mem h)

lemma charIndex_inj {A : List Char} {c1 c2 : Char} {i : Nat}
    (h1 : charIndex A c1 = some i) (h2 : charIndex A c2 = some i) : c1 = c2 := by
  induction A generalizing i with
  | nil => simp [charIndex] at h1
  | cons a t ih =>
    rw [charIndex] at h1 h2
    by_cases hac1 : a = c1 <;> by_cases hac2 : a = c2
    · rw [← hac1, ← hac2]
    · simp only [if_pos hac1, Option.some.injEq] at h1
      simp only [if_neg hac2, Option.map_eq_some'] at h2
      omega
    · simp only [if_pos hac2, Option.some.injEq] at h2
      simp only [if_neg hac1, Option.map_eq_some'] at h1
      omega
    · simp only [if_neg hac1, Option.map_eq_some'] at h1
      simp only [if_neg hac2, Option.map_eq_some'] at h2
      obtain ⟨j1, hj1, hj1i⟩ := h1
      obtain ⟨j2, hj2, hj2i⟩ := h2
      have : j1 = j2 := by omega
      exact ih hj1 (this ▸ hj2)

lemma getD_mem {A : List Char} {n : Nat} {d : Char} (h : n < A.length) :
    A.getD n d ∈ A := by
  induction A generalizing n with
  | nil => simp at h
  | cons a t ih =>
    cases n with
    | zero => simp
    | succ m =>
      simp only [List.getD_cons_succ]
      exact List.mem_cons_of_mem _ (ih (by simpa using h))

lemma charIndex_getD_zero {A : List Char} (h : A ≠ []) (d : Char) :
    charIndex A (A.getD 0 d) = some 0 := by
  cases A with
  | nil => exact absurd rfl h
  | cons a t => simp [charIndex]

lemma charIndex_getD_self {A : List Char} (hnd : A.Nodup) {n : Nat}
    (h : n < A.length) (d : Char) : charIndex A (A.getD n d) = some n := by
  induction A generalizing n with
  | nil => simp at h
  | cons a t ih =>
    cases n with
    | zero => simp [charIndex]
    | succ m =>
      have hm : m < t.length := by simpa using h
      have hmem : t.getD m d ∈ t := getD_mem hm
      have hne : a ≠ t.getD m d := by
        intro hcontra
        exact (List.nodup_cons.mp hnd).1 (hcontra ▸ hmem)
      rw [List.getD_cons_succ, charIndex, if_neg hne,
        ih (List.nodup_cons.mp hnd).2 hm]
      simp

/-! ## Lemmas about `decode_int` and the value functions -/

lemma decodeAux_eq_msVal {A r : List Char} (h : ∀ c ∈ r, c ∈ A) :
    decodeAux A r = some (msVal A r) := by
  induction r with
  | nil => rfl
  | cons c t ih =>
    have hc : c ∈ A := h c (List.mem_cons_self _ _)
    have ht : ∀ x ∈ t, x ∈ A := fun x hx => h x (List.mem_cons_of_mem _ hx)
    rw [decodeAux, ih ht, charIndex_some_of_mem hc]
    simp [msVal]

lemma decodeAux_eq_none {A r : List Char} (h : ¬ ∀ c ∈ r, c ∈ A) :
    decodeAux A r = none := by
  induction r with
  | nil => simp at h
  | cons c t ih =>
    rw [decodeAux]
    by_cases hc : c ∈ A
    · have ht : ¬ ∀ x ∈ t, x ∈ A := by
        intro hall
        exact h (by
          intro x hx
          rcases List.mem_cons.mp hx with hx0 | hx1
          · exact hx0 ▸ hc
          · exact hall x hx1)
      rw [ih ht]
      rcases hop : charIndex A c with _ | d <;> rfl
    · rw [charIndex_eq_none_iff.mpr hc]

lemma msVal_concat {A l : List Char} {c : Char} :
    msVal A (l ++ [c]) = A.length * msVal A l + (charIndex A c).getD 0 := by
  induction l with
  | nil => simp [msVal]
  | cons x t ih =>
    rw [List.cons_append, msVal, ih, msVal]
    have hlen : (t ++ [c]).length = t.length + 1 := by simp
    rw [hlen]
    ring

lemma msVal_reverse {A s : List Char} : msVal A s.reverse = lsVal A s := by
  induction s with
  | nil => rfl
  | cons c t ih =>
    rw [List.reverse_cons, msVal_concat, ih, lsVal]
    ring

lemma decode_int_eq_lsVal {A s : List Char} (h : ∀ c ∈ s, c ∈ A) :
    decode_int s A = some (lsVal A s) := by
  rw [decode_int, decodeAux_eq_msVal (by simpa using h), msVal_reverse]

lemma decode_int_eq_none {A s : List Char} (h : ¬ ∀ c ∈ s, c ∈ A) :
    decode_int s A = none := by
  rw [decode_int, decodeAux_eq_none]
  simpa using h

lemma lsVal_lt {A s : List Char} (h : ∀ c ∈ s, c ∈ A) :
    lsVal A s < A.length ^ s.length := by
  induction s with
  | nil => simp [lsVal]
  | cons c t ih =>
    have hd : (charIndex A c).getD 0 < A.length :=
      charIndex_getD_lt (h c (List.mem_cons_self _ _))
    have hX : lsVal A t < A.length ^ t.length :=
      ih (fun x hx => h x (List.mem_cons_of_mem _ hx))
    rw [lsVal, List.length_cons, pow_succ]
    calc (charIndex A c).getD 0 + A.length * lsVal A t
        < A.length + A.length * lsVal A t := by omega
      _ = A.length * (lsVal A t + 1) := by ring
      _ ≤ A.length * (A.length ^ t.length) := Nat.mul_le_mul_left _ (by omega)
      _ = A.length ^ t.length * A.length := by ring

lemma lsVal_append {A xs ys : List Char} :
    lsVal A (xs ++ ys) = lsVal A xs + A.length ^ xs.length * lsVal A ys := by
  induction xs with
  | nil => simp [lsVal]
  | cons c t ih =>
    rw [List.cons_append, lsVal, ih, lsVal, List.length_cons, pow_succ]
    ring

lemma lsVal_replicate {A : List Char} (h : A ≠ []) {k : Nat} :
    lsVal A (List.replicate k (A.getD 0 ' ')) = 0 := by
  induction k with
  | zero => rfl
  | succ m ih =>
    rw [List.replicate_succ, lsVal, ih, charIndex_getD_zero h]
    rfl

lemma lsVal_inj {A : List Char} :
    ∀ {s t : List Char}, s.length = t.length → (∀ c ∈ s, c ∈ A) →
      (∀ c ∈ t, c ∈ A) → lsVal A s = lsVal A t → s = t := by
  intro s
  induction s with
  | nil =>
    intro t hlen _ _ _
    exact (List.eq_nil_of_length_eq_zero hlen.symm).symm
  | cons c s2 ih =>
    intro t hlen hs ht hval
    cases t with
    | nil => simp at hlen
    | cons d t2 =>
      have hc : c ∈ A := hs c (List.mem_cons_self _ _)
      have hd : d ∈ A := ht d (List.mem_cons_self _ _)
      have hb : 0 < A.length := List.length_pos.mpr (List.ne_nil_of_mem hc)
      have hdc : (charIndex A c).getD 0 < A.length := charIndex_getD_lt hc
      have hdd : (charIndex A d).getD 0 < A.length := charIndex_getD_lt hd
      rw [lsVal, lsVal] at hval
      have hmod : (charIndex A c).getD 0 = (charIndex A d).getD 0 := by
        have h1 : ((charIndex A c).getD 0 + A.length * lsVal A s2) % A.length
            = (charIndex A c).getD 0 := by
          rw [Nat.add_mul_mod_self_left, Nat.mod_eq_of_lt hdc]
        have h2 : ((charIndex A d).getD 0 + A.length * lsVal A t2) % A.length
            = (charIndex A d).getD 0 := by
          rw [Nat.add_mul_mod_self_left, Nat.mod_eq_of_lt hdd]
        rw [← h1, ← h2, hval]
      have hcd : c = d := by
        apply charIndex_inj (i := (charIndex A c).getD 0)
          (charIndex_some_of_mem hc)
        rw [hmod]
        exact charIndex_some_of_mem hd
      have htail : lsVal A s2 = lsVal A t2 := by
        have : A.length * lsVal A s2 = A.length * lsVal A t2 := by omega
        exact Nat.eq_of_mul_eq_mul_left hb this
      have hlen2 : s2.length = t2.length := by simpa using hlen
      rw [hcd, ih hlen2 (fun x hx => hs x (List.mem_cons_of_mem _ hx))
        (fun x hx => ht x (List.mem_cons_of_mem _ hx)) htail]

/-! ## Lemmas about `encodeDigits` and `encode_int_r` -/

lemma encodeDigits_mem {base : Nat} {A : List Char} (hb : 2 ≤ base)
    (hba : base ≤ A.length) :
    ∀ fuel n, n ≤ fuel → ∀ c ∈ encodeDigits base A fuel n, c ∈ A := by
  intro fuel
  induction fuel with
  | zero =>
    intro n hn c hc
    have hn0 : n = 0 := by omega
    subst hn0
    rw [encodeDigits] at hc
    simp only [List.mem_singleton] at hc
    subst hc
    exact getD_mem (by omega)
  | succ f ih =>
    intro n hn c hc
    rw [encodeDigits] at hc
    by_cases hnb : n < base
    · rw [if_pos hnb] at hc
      simp only [List.mem_singleton] at hc
      subst hc
      exact getD_mem (by omega)
    · rw [if_neg hnb] at hc
      rcases List.mem_cons.mp hc with h0 | h1
      · subst h0
        exact getD_mem (lt_of_lt_of_le (Nat.mod_lt _ (by omega)) hba)
      · have hrec : n / base < n := Nat.div_lt_self (by omega) (by omega)
        exact ih (n / base) (by omega) c h1

lemma encodeDigits_length_le {base : Nat} {A : List Char} (hb : 2 ≤ base) :
    ∀ fuel n m, n ≤ fuel → n < base ^ m → 1 ≤ m →
      (encodeDigits base A fuel n).length ≤ m := by
  intro fuel
  induction fuel with
  | zero =>
    intro n m hn _ hm
    have hn0 : n = 0 := by omega
    subst hn0
    rw [encodeDigits]
    simpa using hm
  | succ f ih =>
    intro n m hn hpow hm
    rw [encodeDigits]
    by_cases hnb : n < base
    · rw [if_pos hnb]
      simpa using hm
    · rw [if_neg hnb]
      have hb0 : 0 < base := by omega
      have hm2 : 2 ≤ m := by
        by_contra hmlt
        have hm1 : m = 1 := by omega
        subst hm1
        rw [pow_one] at hpow
        omega
      have hdiv : n / base < base ^ (m - 1) := by
        rw [Nat.div_lt_iff_lt_mul hb0]
        calc n < base ^ m := hpow
          _ = base ^ (m - 1) * base := by
            rw [← pow_succ]
            congr 1
            omega
      have hrec : n / base < n := Nat.div_lt_self (by omega) (by omega)
      have := ih (n / base) (m - 1) (by omega) hdiv (by omega)
      simp only [List.length_cons]
      omega

lemma encodeDigits_lsVal {A : List Char} (hnd : A.Nodup) (h2 : 2 ≤ A.length) :
    ∀ fuel n, n ≤ fuel → lsVal A (encodeDigits A.length A fuel n) = n := by
  intro fuel
  induction fuel with
  | zero =>
    intro n hn
    have hn0 : n = 0 := by omega
    subst hn0
    rw [encodeDigits, lsVal, lsVal, charIndex_getD_zero (by
      intro hnil
      rw [hnil] at h2
      simp at h2)]
    simp
  | succ f ih =>
    intro n hn
    rw [encodeDigits]
    by_cases hnb : n < A.length
    · rw [if_pos hnb, lsVal, lsVal, charIndex_getD_self hnd hnb]
      simp
    · rw [if_neg hnb, lsVal]
      have hmod : n % A.length < A.length := Nat.mod_lt _ (by omega)
      have hrec : n / A.length < n := Nat.div_lt_self (by omega) (by omega)
      rw [charIndex_getD_self hnd hmod, ih (n / A.length) (by omega)]
      simp [Nat.mod_add_div]

lemma validate_self {a : List Char} (h2 : 2 ≤ a.length)
    (hmax : a.length ≤ MAX_RADIX) :
    validate_radix_and_alphabet (some a.length) (some a) = .ok (a.length, a) := by
  rw [validate_radix_and_alphabet]
  rw [if_neg (by simp only [Option.getD_some]; omega)]
  rw [if_neg (by simp only [Option.map_some', Option.getD_some]; omega)]
  rw [if_neg (by simp)]
  show validateStep2 (some a.length) a = _
  rw [validateStep2, pyStr, if_neg (by simp)]
  simp only [Option.getD_some]
  rw [if_neg (by omega)]

lemma encode_int_r_spec {A : List Char} (hnd : A.Nodup) (h2 : 2 ≤ A.length)
    (hmax : A.length ≤ MAX_RADIX) {cval m : Nat} (hc : cval < A.length ^ m)
    (hm : 1 ≤ m) :
    ∃ s, encode_int_r cval A.length m A = .ok s ∧ s.length = m ∧
      (∀ ch ∈ s, ch ∈ A) ∧ lsVal A s = cval := by
  rw [encode_int_r, validate_self h2 hmax]
  have hne : A ≠ [] := by
    intro hnil
    rw [hnil] at h2
    simp at h2
  have hxlen : (encodeDigits A.length A cval cval).length ≤ m :=
    encodeDigits_length_le h2 cval cval m le_rfl hc hm
  refine ⟨_, rfl, ?_, ?_, ?_⟩
  · simp only [List.length_append, List.length_replicate]
    omega
  · intro ch hch
    rcases List.mem_append.mp hch with hx | hpad
    · exact encodeDigits_mem h2 le_rfl cval cval le_rfl ch hx
    · rw [List.eq_of_mem_replicate hpad]
      exact getD_mem (by omega)
  · rw [lsVal_append, lsVal_replicate hne, encodeDigits_lsVal hnd h2 cval cval le_rfl]
    ring

/-! ## Auxiliary facts for the Feistel rounds -/

lemma toBytes_bound : (256 : Nat) ^ 12 = 2 ^ 96 := by norm_num

lemma toBytesBE_some {len n : Nat} (h : n < 256 ^ len) :
    toBytesBE len n
      = some ((List.range len).map (fun i => n / 256 ^ (len - 1 - i) % 256)) := by
  rw [toBytesBE, if_pos h]

lemma calculateP_ok {A b : List Char} {W : List Nat} {i : Nat}
    (hmem : ∀ ch ∈ b, ch ∈ A) (hbound : A.length ^ b.length ≤ 256 ^ 12) :
    ∃ P, calculateP i A W b = .ok P := by
  simp only [calculateP, decode_int_eq_lsVal hmem,
    toBytesBE_some (lt_of_lt_of_le (lsVal_lt hmem) hbound)]
  exact ⟨_, rfl⟩

lemma expand_tweak_ok {tb : List Nat}
    (h : tb.length = TWEAK_LEN ∨ tb.length = TWEAK_LEN_NEW) :
    ∃ p, expand_tweak tb = .ok p := by
  rw [expand_tweak]
  rcases h with h8 | h7
  · rw [if_pos h8]
    exact ⟨_, rfl⟩
  · by_cases h8 : tb.length = TWEAK_LEN
    · rw [if_pos h8]
      exact ⟨_, rfl⟩
    · rw [if_neg h8, if_pos h7]
      exact ⟨_, rfl⟩

lemma minLen_ge_two {r : Nat} (hr2 : 2 ≤ r) (hrmax : r ≤ MAX_RADIX) :
    2 ≤ Nat.clog r DOMAIN_MIN := by
  by_contra h
  push_neg at h
  have hle : DOMAIN_MIN ≤ r ^ 1 := (Nat.le_pow_iff_clog_le (by omega)).mpr (by omega)
  rw [pow_one] at hle
  rw [DOMAIN_MIN] at hle
  rw [MAX_RADIX] at hrmax
  norm_num at hrmax
  omega

lemma pow_half_le {r n : Nat} (hr2 : 2 ≤ r)
    (hn : n ≤ 2 * Nat.log r (2 ^ 96)) : r ^ ((n + 1) / 2) ≤ 2 ^ 96 := by
  have hu : (n + 1) / 2 ≤ Nat.log r (2 ^ 96) := by omega
  calc r ^ ((n + 1) / 2) ≤ r ^ Nat.log r (2 ^ 96) :=
        Nat.pow_le_pow_right (by omega) hu
    _ ≤ 2 ^ 96 := Nat.pow_log_le_self r (by positivity)

/-- The length of the half that round `i` rewrites: `u` for even rounds,
`v` for odd rounds. -/
def halfLen (u v i : Nat) : Nat := if i % 2 = 0 then u else v

lemma halfLen_add_two {u v i : Nat} : halfLen u v (i + 2) = halfLen u v i := by
  simp [halfLen, Nat.add_mod_right]

lemma halfLen_le {u v : Nat} (h : v ≤ u) (i : Nat) : halfLen u v i ≤ u := by
  unfold halfLen
  split <;> omega

lemma halfLen_pos {u v : Nat} (hv : 1 ≤ v) (hvu : v ≤ u) (i : Nat) :
    1 ≤ halfLen u v i := by
  unfold halfLen
  split <;> omega

/-- The state invariant maintained across the Feistel rounds: before round `i`
the `A` half has the length selected by round `i`, the `B` half the length
selected by round `i+1`, and both halves are strings over the alphabet. -/
def RoundInv (A : List Char) (u v i : Nat) (st : List Char × List Char) : Prop :=
  st.1.length = halfLen u v i ∧ st.2.length = halfLen u v (i + 1) ∧
    (∀ ch ∈ st.1, ch ∈ A) ∧ (∀ ch ∈ st.2, ch ∈ A)

/-! ## Round lemmas -/

lemma encRound_decRound {A : List Char} (aes : List Nat → List Nat)
    {u v : Nat} (Tl Tr : List Nat)
    (hnd : A.Nodup) (h2 : 2 ≤ A.length) (hmax : A.length ≤ MAX_RADIX)
    (hv : 1 ≤ v) (hvu : v ≤ u) (hub : A.length ^ u ≤ 2 ^ 96)
    {i : Nat} {st : List Char × List Char} (hinv : RoundInv A u v i st) :
    ∃ st2, encRound A.length A aes u v Tl Tr st i = .ok st2 ∧
      RoundInv A u v (i + 1) st2 ∧
      decRound A.length A aes u v Tl Tr st2 i = .ok st := by
  obtain ⟨a, b⟩ := st
  obtain ⟨hal, hbl, hamem, hbmem⟩ := hinv
  simp only at hal hbl hamem hbmem
  have hbound : A.length ^ b.length ≤ 256 ^ 12 := by
    rw [toBytes_bound, hbl]
    calc A.length ^ halfLen u v (i + 1) ≤ A.length ^ u :=
          Nat.pow_le_pow_right (by omega) (halfLen_le hvu _)
      _ ≤ 2 ^ 96 := hub
  obtain ⟨P, hP⟩ :=
    calculateP_ok (W := if i % 2 = 0 then Tr else Tl) (i := i) hbmem hbound
  have hmeq : (if i % 2 = 0 then u else v) = halfLen u v i := rfl
  have hm1 : 1 ≤ halfLen u v i := halfLen_pos hv hvu i
  have hMpos : 0 < A.length ^ halfLen u v i := by positivity
  have hcv : (lsVal A a + beVal ((aes P.reverse).reverse))
      % A.length ^ halfLen u v i < A.length ^ halfLen u v i :=
    Nat.mod_lt _ hMpos
  obtain ⟨C, hCeq, hClen, hCmem, hCval⟩ := encode_int_r_spec hnd h2 hmax hcv hm1
  have ha0 : lsVal A a < A.length ^ halfLen u v i := by
    rw [← hal]
    exact lsVal_lt hamem
  refine ⟨(b, C), ?_, ?_, ?_⟩
  · simp only [encRound, hP, decode_int_eq_lsVal hamem, hmeq, hCeq]
  · exact ⟨hbl, by
      simpa only [← halfLen_add_two (u := u) (v := v) (i := i)] using hClen,
      hbmem, hCmem⟩
  · have hMcast : ((A.length : Int) ^ halfLen u v i)
        = ((A.length ^ halfLen u v i : Nat) : Int) := by push_cast; ring
    have hkey : (((((lsVal A a + beVal ((aes P.reverse).reverse))
          % A.length ^ halfLen u v i : Nat) : Int)
          - ((beVal ((aes P.reverse).reverse) : Nat) : Int))
          % ((A.length : Int) ^ halfLen u v i)).toNat = lsVal A a := by
      rw [hMcast]
      have hcast : (((lsVal A a + beVal ((aes P.reverse).reverse))
          % A.length ^ halfLen u v i : Nat) : Int)
          = (((lsVal A a : Nat) : Int) + ((beVal ((aes P.reverse).reverse) : Nat) : Int))
            % ((A.length ^ halfLen u v i : Nat) : Int) := by push_cast; ring
      rw [hcast]
      have h1 : ((((lsVal A a : Nat) : Int) + ((beVal ((aes P.reverse).reverse) : Nat) : Int))
            % ((A.length ^ halfLen u v i : Nat) : Int)
            - ((beVal ((aes P.reverse).reverse) : Nat) : Int))
            % ((A.length ^ halfLen u v i : Nat) : Int)
          = ((((lsVal A a : Nat) : Int) + ((beVal ((aes P.reverse).reverse) : Nat) : Int))
            - ((beVal ((aes P.reverse).reverse) : Nat) : Int))
            % ((A.length ^ halfLen u v i : Nat) : Int) :=
        Int.ModEq.sub_right _ (Int.emod_emod_of_dvd _ dvd_rfl)
      rw [h1, add_sub_cancel_right, Int.emod_eq_of_lt (by positivity)
        (by exact_mod_cast ha0), Int.toNat_natCast]
    obtain ⟨C2, hC2eq, hC2len, hC2mem, hC2val⟩ :=
      encode_int_r_spec hnd h2 hmax ha0 hm1
    have hC2a : C2 = a := lsVal_inj (by rw [hC2len, hal]) hC2mem hamem
      (by rw [hC2val])
    simp only [decRound, hP, decode_int_eq_lsVal hCmem, hCval, hmeq, hkey,
      hC2eq, hC2a]

lemma decRound_ok {A : List Char} (aes : List Nat → List Nat)
    {u v : Nat} (Tl Tr : List Nat)
    (hnd : A.Nodup) (h2 : 2 ≤ A.length) (hmax : A.length ≤ MAX_RADIX)
    (hv : 1 ≤ v) (hvu : v ≤ u) (hub : A.length ^ u ≤ 2 ^ 96)
    {i : Nat} {st : List Char × List Char} (hinv : RoundInv A u v (i + 1) st) :
    ∃ st2, decRound A.length A aes u v Tl Tr st i = .ok st2 ∧
      RoundInv A u v i st2 := by
  obtain ⟨a, b⟩ := st
  obtain ⟨hal, hbl, hamem, hbmem⟩ := hinv
  simp only at hal hbl hamem hbmem
  have habound : A.length ^ a.length ≤ 256 ^ 12 := by
    rw [toBytes_bound, hal]
    calc A.length ^ halfLen u v (i + 1) ≤ A.length ^ u :=
          Nat.pow_le_pow_right (by omega) (halfLen_le hvu _)
      _ ≤ 2 ^ 96 := hub
  obtain ⟨P, hP⟩ :=
    calculateP_ok (W := if i % 2 = 0 then Tr else Tl) (i := i) hamem habound
  have hmeq : (if i % 2 = 0 then u else v) = halfLen u v i := rfl
  have hm1 : 1 ≤ halfLen u v i := halfLen_pos hv hvu i
  have hMpos : 0 < A.length ^ halfLen u v i := by positivity
  have hMcast : ((A.length : Int) ^ halfLen u v i)
      = ((A.length ^ halfLen u v i : Nat) : Int) := by push_cast; ring
  have hMposI : (0 : Int) < ((A.length ^ halfLen u v i : Nat) : Int) := by
    exact_mod_cast hMpos
  have hnn : (0 : Int) ≤ (((lsVal A b : Nat) : Int)
      - ((beVal ((aes P.reverse).reverse) : Nat) : Int))
      % ((A.length ^ halfLen u v i : Nat) : Int) :=
    Int.emod_nonneg _ (by omega)
  have hlt : (((lsVal A b : Nat) : Int)
      - ((beVal ((aes P.reverse).reverse) : Nat) : Int))
      % ((A.length ^ halfLen u v i : Nat) : Int)
      < ((A.length ^ halfLen u v i : Nat) : Int) :=
    Int.emod_lt_of_pos _ hMposI
  have hcv : ((((lsVal A b : Nat) : Int)
      - ((beVal ((aes P.reverse).reverse) : Nat) : Int))
      % ((A.length : Int) ^ halfLen u v i)).toNat
      < A.length ^ halfLen u v i := by
    rw [hMcast]
    omega
  obtain ⟨C, hCeq, hClen, hCmem, hCval⟩ := encode_int_r_spec hnd h2 hmax hcv hm1
  refine ⟨(C, a), ?_, ?_⟩
  · simp only [decRound, hP, decode_int_eq_lsVal hbmem, hmeq, hCeq]
  · exact ⟨hClen, hal, hCmem, hamem⟩

/-! ## Folding the eight rounds -/

lemma foldlM_concat {m : Type → Type} [Monad m] [LawfulMonad m] {α β : Type}
    (f : β → α → m β) (b : β) (l : List α) (a : α) :
    (l ++ [a]).foldlM f b = l.foldlM f b >>= fun s => f s a := by
  induction l generalizing b with
  | nil => simp
  | cons c t ih => simp [List.foldlM_cons, ih]

lemma foldE_master {A : List Char} (aes : List Nat → List Nat)
    {u v : Nat} (Tl Tr : List Nat)
    (hnd : A.Nodup) (h2 : 2 ≤ A.length) (hmax : A.length ≤ MAX_RADIX)
    (hv : 1 ≤ v) (hvu : v ≤ u) (hub : A.length ^ u ≤ 2 ^ 96) :
    ∀ (k j : Nat) (st : List Char × List Char), RoundInv A u v j st →
      ∃ stk, (List.range' j k).foldlM (encRound A.length A aes u v Tl Tr) st
          = .ok stk ∧
        RoundInv A u v (j + k) stk ∧
        ((List.range' j k).reverse).foldlM (decRound A.length A aes u v Tl Tr) stk
          = .ok st := by
  intro k
  induction k with
  | zero =>
    intro j st hinv
    exact ⟨st, rfl, hinv, rfl⟩
  | succ k ih =>
    intro j st hinv
    obtain ⟨st2, hstep, hinv2, hdec⟩ :=
      encRound_decRound aes Tl Tr hnd h2 hmax hv hvu hub hinv
    obtain ⟨stk, hfold, hinvk, hdfold⟩ := ih (j + 1) st2 hinv2
    have hjk : j + 1 + k = j + (k + 1) := by omega
    rw [hjk] at hinvk
    refine ⟨stk, ?_, hinvk, ?_⟩
    · rw [List.range'_succ, List.foldlM_cons, hstep]
      simpa using hfold
    · rw [List.range'_succ, List.reverse_cons, foldlM_concat, hdfold]
      simpa using hdec

lemma foldD_master {A : List Char} (aes : List Nat → List Nat)
    {u v : Nat} (Tl Tr : List Nat)
    (hnd : A.Nodup) (h2 : 2 ≤ A.length) (hmax : A.length ≤ MAX_RADIX)
    (hv : 1 ≤ v) (hvu : v ≤ u) (hub : A.length ^ u ≤ 2 ^ 96) :
    ∀ (k j : Nat) (st : List Char × List Char), RoundInv A u v (j + k) st →
      ∃ st0, ((List.range' j k).reverse).foldlM
          (decRound A.length A aes u v Tl Tr) st = .ok st0 ∧
        RoundInv A u v j st0 := by
  intro k
  induction k with
  | zero =>
    intro j st hinv
    exact ⟨st, rfl, by simpa using hinv⟩
  | succ k ih =>
    intro j st hinv
    have hinvk : RoundInv A u v (j + k + 1) st := by
      have : j + (k + 1) = j + k + 1 := by omega
      rwa [this] at hinv
    obtain ⟨st2, hstep, hinv2⟩ :=
      decRound_ok aes Tl Tr hnd h2 hmax hv hvu hub hinvk
    obtain ⟨st0, hfold, hinv0⟩ := ih j st2 hinv2
    refine ⟨st0, ?_, hinv0⟩
    rw [show List.range' j (k + 1) = List.range' j k ++ [j + k] from ?_,
      List.reverse_append]
    · simp only [List.reverse_cons, List.reverse_nil, List.nil_append,
        List.cons_append, List.foldlM_cons, hstep]
      simpa using hfold
    · rw [List.range'_concat]
      norm_num

/-! ## Engine-level lemmas -/

lemma minLen_eq {c : FF3Cipher}
    (hml : minlen_and_maxlen c.radix = (c.minLen, c.maxLen)) :
    c.minLen = Nat.clog c.radix DOMAIN_MIN ∧
      c.maxLen = 2 * Nat.log c.radix (2 ^ 96) := by
  rw [minlen_and_maxlen, Prod.mk.injEq] at hml
  exact ⟨hml.1.symm, hml.2.symm⟩

lemma engine_ok (c : FF3Cipher) (s tw : List Char) (tb : List Nat)
    (hnd : c.alphabet.Nodup) (hra : c.alphabet.length = c.radix)
    (hr2 : 2 ≤ c.radix) (hrmax : c.radix ≤ MAX_RADIX)
    (hml : minlen_and_maxlen c.radix = (c.minLen, c.maxLen))
    (htw : fromHex tw = some tb)
    (htl : tb.length = TWEAK_LEN ∨ tb.length = TWEAK_LEN_NEW)
    (hchars : ∀ ch ∈ s, ch ∈ c.alphabet)
    (hmin : c.minLen ≤ s.length) (hmax2 : s.length ≤ c.maxLen) :
    ∃ ct, c.encrypt_with_tweak s tw = .ok ct ∧ ct.length = s.length ∧
      (∀ ch ∈ ct, ch ∈ c.alphabet) ∧
      c.decrypt_with_tweak ct tw = .ok s := by
  obtain ⟨hmlE, hmxE⟩ := minLen_eq hml
  have hn2 : 2 ≤ s.length := by
    have := minLen_ge_two hr2 hrmax
    omega
  set u := (s.length + 1) / 2 with hu
  set v := s.length - u with hv0
  have hv : 1 ≤ v := by omega
  have hvu : v ≤ u := by omega
  have huv : u + v = s.length := by omega
  have hub : c.alphabet.length ^ u ≤ 2 ^ 96 := by
    rw [hra]
    exact pow_half_le hr2 (by omega)
  have hinv0 : RoundInv c.alphabet u v 0 (s.take u, s.drop u) := by
    refine ⟨?_, ?_, ?_, ?_⟩
    · simp only [List.length_take, halfLen]
      norm_num
      omega
    · simp only [List.length_drop, halfLen]
      norm_num
    · exact fun ch hch => hchars ch (List.take_subset _ _ hch)
    · exact fun ch hch => hchars ch (List.drop_subset _ _ hch)
  obtain ⟨⟨Tl, Tr⟩, hTT⟩ := expand_tweak_ok htl
  obtain ⟨st8, hfold, hinv8, hdfold⟩ :=
    foldE_master c.aesCipher Tl Tr
      hnd (by omega) (by omega) hv hvu hub 8 0 (s.take u, s.drop u) hinv0
  have hst1len : st8.1.length = u := by
    have := hinv8.1
    simpa [halfLen] using this
  have hst2len : st8.2.length = v := by
    have := hinv8.2.1
    simpa [halfLen] using this
  have hctlen : (st8.1 ++ st8.2).length = s.length := by
    simp [hst1len, hst2len]
    omega
  have hrange : List.range NUM_ROUNDS = List.range' 0 8 :=
    List.range_eq_range' 8
  refine ⟨st8.1 ++ st8.2, ?_, hctlen, ?_, ?_⟩
  · simp only [FF3Cipher.encrypt_with_tweak, htw]
    rw [if_neg (by omega)]
    rw [if_neg (fun h => h htl)]
    simp only [hTT, ← hu, ← hv0, hrange, ← hra, hfold]
  · intro ch hch
    rcases List.mem_append.mp hch with h1 | h1
    · exact hinv8.2.2.1 ch h1
    · exact hinv8.2.2.2 ch h1
  · simp only [FF3Cipher.decrypt_with_tweak, htw, hctlen]
    rw [if_neg (by omega)]
    rw [if_neg (fun h => h htl)]
    have htk : (st8.1 ++ st8.2).take u = st8.1 := by
      rw [← hst1len]
      exact List.take_left _ _
    have hdr : (st8.1 ++ st8.2).drop u = st8.2 := by
      rw [← hst1len]
      exact List.drop_left _ _
    simp only [hTT, ← hu, ← hv0, hrange, ← hra, htk, hdr]
    have hst8eta : (st8.1, st8.2) = st8 := rfl
    rw [hst8eta, hdfold]
    simp [List.take_append_drop]

lemma engine_dec_ok (c : FF3Cipher) (s tw : List Char) (tb : List Nat)
    (hnd : c.alphabet.Nodup) (hra : c.alphabet.length = c.radix)
    (hr2 : 2 ≤ c.radix) (hrmax : c.radix ≤ MAX_RADIX)
    (hml : minlen_and_maxlen c.radix = (c.minLen, c.maxLen))
    (htw : fromHex tw = some tb)
    (htl : tb.length = TWEAK_LEN ∨ tb.length = TWEAK_LEN_NEW)
    (hchars : ∀ ch ∈ s, ch ∈ c.alphabet)
    (hmin : c.minLen ≤ s.length) (hmax2 : s.length ≤ c.maxLen) :
    ∃ pt, c.decrypt_with_tweak s tw = .ok pt ∧ pt.length = s.length ∧
      (∀ ch ∈ pt, ch ∈ c.alphabet) := by
  obtain ⟨hmlE, hmxE⟩ := minLen_eq hml
  have hn2 : 2 ≤ s.length := by
    have := minLen_ge_two hr2 hrmax
    omega
  set u := (s.length + 1) / 2 with hu
  set v := s.length - u with hv0
  have hv : 1 ≤ v := by omega
  have hvu : v ≤ u := by omega
  have hub : c.alphabet.length ^ u ≤ 2 ^ 96 := by
    rw [hra]
    exact pow_half_le hr2 (by omega)
  have hinv8 : RoundInv c.alphabet u v 8 (s.take u, s.drop u) := by
    refine ⟨?_, ?_, ?_, ?_⟩
    · simp only [List.length_take, halfLen]
      norm_num
      omega
    · simp only [List.length_drop, halfLen]
      norm_num
    · exact fun ch hch => hchars ch (List.take_subset _ _ hch)
    · exact fun ch hch => hchars ch (List.drop_subset _ _ hch)
  obtain ⟨⟨Tl, Tr⟩, hTT⟩ := expand_tweak_ok htl
  obtain ⟨st0, hdfold, hinv0⟩ :=
    foldD_master c.aesCipher Tl Tr
      hnd (by omega) (by omega) hv hvu hub 8 0 (s.take u, s.drop u)
      (by simpa using hinv8)
  have hst1len : st0.1.length = u := by
    have := hinv0.1
    simpa [halfLen] using this
  have hst2len : st0.2.length = v := by
    have := hinv0.2.1
    simpa [halfLen] using this
  have hrange : List.range NUM_ROUNDS = List.range' 0 8 :=
    List.range_eq_range' 8
  refine ⟨st0.1 ++ st0.2, ?_, ?_, ?_⟩
  · simp only [FF3Cipher.decrypt_with_tweak, htw]
    rw [if_neg (by omega)]
    rw [if_neg (fun h => h htl)]
    simp only [hTT, ← hu, ← hv0, hrange, ← hra, hdfold]
  · simp [hst1len, hst2len]
    omega
  · intro ch hch
    rcases List.mem_append.mp hch with h1 | h1
    · exact hinv0.2.2.1 ch h1
    · exact hinv0.2.2.2 ch h1

lemma encrypt_badlen {c : FF3Cipher} {pt tw : List Char} {tb : List Nat}
    (htw : fromHex tw = some tb)
    (hlen : pt.length < c.minLen ∨ c.maxLen < pt.length) :
    c.encrypt_with_tweak pt tw = .error Err.msgLen := by
  simp only [FF3Cipher.encrypt_with_tweak, htw]
  rw [if_pos (by omega)]

lemma decrypt_badlen {c : FF3Cipher} {pt tw : List Char} {tb : List Nat}
    (htw : fromHex tw = some tb)
    (hlen : pt.length < c.minLen ∨ c.maxLen < pt.length) :
    c.decrypt_with_tweak pt tw = .error Err.msgLen := by
  simp only [FF3Cipher.decrypt_with_tweak, htw]
  rw [if_pos (by omega)]

lemma encrypt_badchar (c : FF3Cipher) (pt tw : List Char) (tb : List Nat)
    (hra : c.alphabet.length = c.radix) (hr2 : 2 ≤ c.radix)
    (hrmax : c.radix ≤ MAX_RADIX)
    (hml : minlen_and_maxlen c.radix = (c.minLen, c.maxLen))
    (htw : fromHex tw = some tb)
    (htl : tb.length = TWEAK_LEN ∨ tb.length = TWEAK_LEN_NEW)
    (hmin : c.minLen ≤ pt.length) (hmax2 : pt.length ≤ c.maxLen)
    (hbad : ¬ ∀ ch ∈ pt, ch ∈ c.alphabet) :
    c.encrypt_with_tweak pt tw = .error Err.charNotInAlphabet := by
  obtain ⟨hmlE, hmxE⟩ := minLen_eq hml
  have hn2 : 2 ≤ pt.length := by
    have := minLen_ge_two hr2 hrmax
    omega
  set u := (pt.length + 1) / 2 with hu
  set v := pt.length - u with hv0
  have hub : c.alphabet.length ^ u ≤ 2 ^ 96 := by
    rw [hra]
    exact pow_half_le hr2 (by omega)
  obtain ⟨⟨Tl, Tr⟩, hTT⟩ := expand_tweak_ok htl
  have hrange : List.range NUM_ROUNDS = List.range' 0 8 :=
    List.range_eq_range' 8
  have hstep : encRound c.alphabet.length c.alphabet c.aesCipher u v Tl Tr
      (pt.take u, pt.drop u) 0 = .error Err.charNotInAlphabet := by
    by_cases hB : ∀ ch ∈ pt.drop u, ch ∈ c.alphabet
    · have htk : ¬ ∀ ch ∈ pt.take u, ch ∈ c.alphabet := by
        intro hall
        apply hbad
        intro ch hch
        rw [← List.take_append_drop u pt] at hch
        rcases List.mem_append.mp hch with h1 | h1
        · exact hall ch h1
        · exact hB ch h1
      have hbound : c.alphabet.length ^ (pt.drop u).length ≤ 256 ^ 12 := by
        rw [toBytes_bound, List.length_drop]
        calc c.alphabet.length ^ (pt.length - u)
            ≤ c.alphabet.length ^ u :=
              Nat.pow_le_pow_right (by omega) (by omega)
          _ ≤ 2 ^ 96 := hub
      obtain ⟨P, hP⟩ := calculateP_ok (W := Tr) (i := 0) hB hbound
      simp [encRound, hP, decode_int_eq_none htk]
    · have hcp : calculateP 0 c.alphabet Tr (pt.drop u)
          = .error Err.charNotInAlphabet := by
        rw [calculateP, decode_int_eq_none hB]
      simp [encRound, hcp]
  have hfolderr : (List.range' 0 8).foldlM
      (encRound c.alphabet.length c.alphabet c.aesCipher u v Tl Tr)
      (pt.take u, pt.drop u) = .error Err.charNotInAlphabet := by
    rw [List.range'_succ, List.foldlM_cons, hstep]
    rfl
  simp only [FF3Cipher.encrypt_with_tweak, htw]
  rw [if_neg (by omega)]
  rw [if_neg (fun h => h htl)]
  simp only [hTT, ← hu, ← hv0, hrange, ← hra, hfolderr]

/-- Construction succeeds whenever the validator and the key accept, for any
tweak whatsoever, and the produced instance stores exactly the supplied data. -/
lemma init_ok {aesNew : List Nat → List Nat → List Nat} {key : List Char}
    {r : Option Nat} {a : Option (List Char)} {R : Nat} {A : List Char}
    {kb : List Nat}
    (hval : validate_radix_and_alphabet r a = .ok (R, A))
    (hkey : fromHex key = some kb)
    (hklen : kb.length = 16 ∨ kb.length = 24 ∨ kb.length = 32)
    (tweak : List Char) :
    FF3Cipher.init aesNew key tweak r a
      = .ok (FF3Cipher.mk tweak R A (minlen_and_maxlen R).1
          (minlen_and_maxlen R).2 (aesNew kb.reverse)) := by
  simp only [FF3Cipher.init, hval, hkey]
  rw [if_pos hklen]

/-! ## Evaluating `minlen_and_maxlen` at concrete radixes -/

lemma clog_eq_of {b N m : Nat} (hb : 1 < b) (h1 : N ≤ b ^ m)
    (h2 : b ^ (m - 1) < N) (hm : 1 ≤ m) : Nat.clog b N = m := by
  have hle : Nat.clog b N ≤ m := (Nat.le_pow_iff_clog_le hb).mp h1
  have hgt : ¬ Nat.clog b N ≤ m - 1 := by
    intro h
    have : N ≤ b ^ (m - 1) := (Nat.le_pow_iff_clog_le hb).mpr h
    omega
  omega

lemma log_eq_of {b N m : Nat} (hb : 1 < b) (hN : N ≠ 0) (h1 : b ^ m ≤ N)
    (h2 : N < b ^ (m + 1)) : Nat.log b N = m := by
  have hle : m ≤ Nat.log b N := (Nat.pow_le_iff_le_log hb hN).mp h1
  have hlt : Nat.log b N < m + 1 := (Nat.lt_pow_iff_log_lt hb hN).mp h2
  omega

lemma mml_eval {r mn L : Nat} (hb : 1 < r) (h1 : DOMAIN_MIN ≤ r ^ mn)
    (h2 : r ^ (mn - 1) < DOMAIN_MIN) (hm : 1 ≤ mn)
    (h3 : r ^ L ≤ 2 ^ 96) (h4 : 2 ^ 96 < r ^ (L + 1)) :
    minlen_and_maxlen r = (mn, 2 * L) := by
  rw [minlen_and_maxlen, clog_eq_of hb h1 h2 hm,
    log_eq_of hb (by positivity) h3 h4]

lemma mml2 : minlen_and_maxlen 2 = (20, 192) := by
  have h : minlen_and_maxlen 2 = (20, 2 * 96) := mml_eval (by norm_num)
    (by norm_num [DOMAIN_MIN]) (by norm_num [DOMAIN_MIN]) (by norm_num)
    (by norm_num) (by norm_num)
  simpa using h

lemma mml3 : minlen_and_maxlen 3 = (13, 120) := by
  have h : minlen_and_maxlen 3 = (13, 2 * 60) := mml_eval (by norm_num)
    (by norm_num [DOMAIN_MIN]) (by norm_num [DOMAIN_MIN]) (by norm_num)
    (by norm_num) (by norm_num)
  simpa using h

lemma mml10 : minlen_and_maxlen 10 = (6, 56) := by
  have h : minlen_and_maxlen 10 = (6, 2 * 28) := mml_eval (by norm_num)
    (by norm_num [DOMAIN_MIN]) (by norm_num [DOMAIN_MIN]) (by norm_num)
    (by norm_num) (by norm_num)
  simpa using h

lemma mml16 : minlen_and_maxlen 16 = (5, 48) := by
  have h : minlen_and_maxlen 16 = (5, 2 * 24) := mml_eval (by norm_num)
    (by norm_num [DOMAIN_MIN]) (by norm_num [DOMAIN_MIN]) (by norm_num)
    (by norm_num) (by norm_num)
  simpa using h

lemma mml26 : minlen_and_maxlen 26 = (5, 40) := by
  have h : minlen_and_maxlen 26 = (5, 2 * 20) := mml_eval (by norm_num)
    (by norm_num [DOMAIN_MIN]) (by norm_num [DOMAIN_MIN]) (by norm_num)
    (by norm_num) (by norm_num)
  simpa using h

lemma mml36 : minlen_and_maxlen 36 = (4, 36) := by
  have h : minlen_and_maxlen 36 = (4, 2 * 18) := mml_eval (by norm_num)
    (by norm_num [DOMAIN_MIN]) (by norm_num [DOMAIN_MIN]) (by norm_num)
    (by norm_num) (by norm_num)
  simpa using h

lemma mml62 : minlen_and_maxlen 62 = (4, 32) := by
  have h : minlen_and_maxlen 62 = (4, 2 * 16) := mml_eval (by norm_num)
    (by norm_num [DOMAIN_MIN]) (by norm_num [DOMAIN_MIN]) (by norm_num)
    (by norm_num) (by norm_num)
  simpa using h

/-- Value-only version of the `encode_int_r` specification: without any bound
on `n`, encoding always succeeds for a validated pair and the emitted string
decodes (least-significant-first) back to `n`. -/
lemma encode_int_r_val {A : List Char} (hnd : A.Nodup) (h2 : 2 ≤ A.length)
    (hmax : A.length ≤ MAX_RADIX) (n len : Nat) :
    ∃ s, encode_int_r n A.length len A = .ok s ∧ (∀ ch ∈ s, ch ∈ A) ∧
      lsVal A s = n := by
  rw [encode_int_r, validate_self h2 hmax]
  have hne : A ≠ [] := by
    intro hnil
    rw [hnil] at h2
    simp at h2
  refine ⟨_, rfl, ?_, ?_⟩
  · intro ch hch
    rcases List.mem_append.mp hch with hx | hpad
    · exact encodeDigits_mem h2 le_rfl n n le_rfl ch hx
    · rw [List.eq_of_mem_replicate hpad]
      exact getD_mem (by omega)
  · rw [lsVal_append, lsVal_replicate hne, encodeDigits_lsVal hnd h2 n n le_rfl]
    ring

/-- `lsVal` written as the explicit positional sum with weight `|A| ^ k` on the
character at position `k`. -/
lemma lsVal_eq_sum {A s : List Char} :
    lsVal A s = ((List.range s.length).map
      (fun k => (charIndex A (s.getD k ' ')).getD 0 * A.length ^ k)).sum := by
  induction s with
  | nil => rfl
  | cons c t ih =>
    rw [lsVal, ih, List.length_cons, List.range_succ_eq_map]
    simp only [List.map_cons, List.map_map, List.sum_cons, List.getD_cons_zero,
      pow_zero, mul_one]
    have hfun : ((fun k => (charIndex A ((c :: t).getD k ' ')).getD 0
          * A.length ^ k) ∘ Nat.succ)
        = fun k => A.length
          * ((charIndex A (t.getD k ' ')).getD 0 * A.length ^ k) := by
      funext k
      simp only [Function.comp_apply, List.getD_cons_succ, pow_succ]
      ring
    rw [hfun, List.sum_map_mul_left]

/-! ## The claims -/

/-- A concrete valid cipher instance used by the witnesses: default decimal
alphabet, the sample 8-byte tweak, and the identity in place of the (arbitrary,
uninterpreted) AES block function. -/
def sampleCipher : FF3Cipher :=
  FF3Cipher.mk "D8E7920AFA330A73".toList 10 "0123456789".toList 6 56 id

/-- C1: for every cipher instance built from a valid key, tweak, radix and
alphabet (distinct characters, `|alphabet| = radix ∈ [2, 65536]`, length
bounds from `minlen_and_maxlen`, stored tweak a hex string of 7 or 8 bytes)
and every string over the alphabet with `minLen ≤ |s| ≤ maxLen`,
`decrypt (encrypt s) = s`; the AES block function `c.aesCipher` is an
arbitrary uninterpreted function on byte strings. -/
theorem claim1_roundtrip (c : FF3Cipher) (s : List Char) (tb : List Nat)
    (hnd : c.alphabet.Nodup) (hra : c.alphabet.length = c.radix)
    (hr2 : 2 ≤ c.radix) (hrmax : c.radix ≤ MAX_RADIX)
    (hml : minlen_and_maxlen c.radix = (c.minLen, c.maxLen))
    (htw : fromHex c.tweak = some tb)
    (htl : tb.length = TWEAK_LEN ∨ tb.length = TWEAK_LEN_NEW)
    (hchars : ∀ ch ∈ s, ch ∈ c.alphabet)
    (hmin : c.minLen ≤ s.length) (hmax2 : s.length ≤ c.maxLen) :
    ((c.encrypt s).bind fun ct => c.decrypt ct) = .ok s := by
  obtain ⟨ct, henc, _, _, hdec⟩ :=
    engine_ok c s c.tweak tb hnd hra hr2 hrmax hml htw htl hchars hmin hmax2
  have he2 : c.encrypt s = .ok ct := henc
  rw [he2]
  exact hdec

/-- Witness for C1 at a concrete instance and input. -/
theorem claim1_roundtrip_witness :
    ((sampleCipher.encrypt "890121234567890000".toList).bind
      fun ct => sampleCipher.decrypt ct) = .ok "890121234567890000".toList :=
  claim1_roundtrip sampleCipher "890121234567890000".toList
    [0xD8, 0xE7, 0x92, 0x0A, 0xFA, 0x33, 0x0A, 0x73]
    (by decide) (by decide) (by decide) (by decide) mml10 (by decide)
    (by decide) (by decide) (by decide) (by decide)

/-- C2 counterexample: `decode_int` does NOT use the most-significant-first
order claimed by the spec: on the string `"10"` over the decimal alphabet it
returns 1 (least-significant-first), not 10. -/
theorem claim2_counterexample :
    decode_int "10".toList "0123456789".toList = some 1 ∧ (1 : Nat) ≠ 10 :=
  ⟨rfl, by decide⟩

/-- C2 amended: for every string whose characters all occur in the alphabet,
`decode_int(s, alphabet)` returns the base-`|alphabet|` value of `s` read
least-significant-digit-first, i.e. the sum over positions `k` of
`index(s[k]) * |alphabet| ^ k`. -/
theorem claim2_decode_lsfirst (s A : List Char) (h : ∀ c ∈ s, c ∈ A) :
    decode_int s A = some (((List.range s.length).map
      (fun k => (charIndex A (s.getD k ' ')).getD 0 * A.length ^ k)).sum) := by
  rw [decode_int_eq_lsVal h, lsVal_eq_sum]

/-- Witness for the amended C2 at the concrete input of the counterexample. -/
theorem claim2_decode_lsfirst_witness :
    decode_int "10".toList "0123456789".toList
      = some (((List.range ("10".toList).length).map
        (fun k => (charIndex "0123456789".toList (("10".toList).getD k ' ')).getD 0
          * ("0123456789".toList).length ^ k)).sum) :=
  claim2_decode_lsfirst "10".toList "0123456789".toList (by decide)

/-- C3: the duplicate-alphabet check on ff3.py line 450 compares
`len(alphabet)` with `len(str(alphabet))`, which are always equal, so a
duplicated alphabet such as `"aab"` passes validation and construction
returns a cipher instance, contradicting the error branch's own message
("The specified alphabet has duplicate characters."). -/
theorem claim3_duplicate_alphabet_accepted :
    validate_radix_and_alphabet (some 3) (some "aab".toList)
        = .ok (3, "aab".toList) ∧
      (FF3Cipher.init (fun _ b => b) "EF4359D8D580AA4F7F036D6F04FC6A94".toList
          "D8E7920AFA330A73".toList (some 3) (some "aab".toList)).map
        (fun c => (c.radix, c.alphabet, c.tweak))
        = .ok (3, "aab".toList, "D8E7920AFA330A73".toList) ∧
      ¬ ("aab".toList).Nodup :=
  ⟨rfl, rfl, by decide⟩

/-- C4: the 7-byte tweak expansion does not pack
`t[32..55] || t[28..31] || 0000`.  On the tweak bytes `00 00 00 01 02 03 04`
the code produces `Tr = 00 20 30 40` (the 24-bit value `0x020304` shifted
left by 4 and re-split into bytes, with `Tr[3] = (tweak[6] << 4) & 0xF0`),
whereas the claimed packing `Tr[0..2] = tweak[4..6]`,
`Tr[3] = (tweak[3] & 0x0F) << 4` would give `02 03 04 10`. -/
theorem claim4_tweak_expansion_bug :
    expand_tweak [0, 0, 0, 1, 2, 3, 4]
        = .ok ([0, 0, 0, 0], [0x00, 0x20, 0x30, 0x40]) ∧
      ([0x00, 0x20, 0x30, 0x40] : List Nat)
        ≠ [2, 3, 4, (1 &&& 0x0F) <<< 4] :=
  ⟨rfl, by decide⟩

/-- C5 counterexample: at the concrete instance radix 10, decimal alphabet,
length 2, `n = 1` — exactly the padding-exercising shape the spec's reason
points at — the reversed encoder yields `"10"` and `decode_int` maps it back
to 1, so the claimed inequality `decode_int(encode_int_reversed(n)) ≠ n`
fails there: `decode_int` also reads its input least-significant-digit-first,
and the composite is the identity. -/
theorem claim5_counterexample :
    encode_int_r 1 10 2 "0123456789".toList = .ok "10".toList ∧
      decode_int "10".toList "0123456789".toList = some 1 :=
  ⟨rfl, rfl⟩

/-- C5 amended: the numeral codec functions ARE strict inverses in the
decode-after-encode direction for every distinct-character alphabet of size
in `[2, 65536]` with the consistent radix. -/
theorem claim5_codec_inverse (A : List Char) (len n : Nat) (hnd : A.Nodup)
    (h2 : 2 ≤ A.length) (hmax : A.length ≤ MAX_RADIX) :
    ∃ s, encode_int_r n A.length len A = .ok s ∧ decode_int s A = some n := by
  obtain ⟨s, hs, hmem, hval⟩ := encode_int_r_val hnd h2 hmax n len
  exact ⟨s, hs, by rw [decode_int_eq_lsVal hmem, hval]⟩

/-- Witness for the amended C5 at the decimal alphabet, `len = 2`, `n = 1`
(the instance that exercises the right-padding path). -/
theorem claim5_codec_inverse_witness :
    ∃ s, encode_int_r 1 ("0123456789".toList).length 2 "0123456789".toList
        = .ok s ∧ decode_int s "0123456789".toList = some 1 :=
  claim5_codec_inverse "0123456789".toList 2 1 (by decide) (by decide)
    (by decide)

/-- C6: the round-block builder at round 0, decimal alphabet,
`B = "567890000"` and `W = FA 33 0A 73` yields exactly the 16 bytes
`FA 33 0A 73 00 00 00 00 00 00 00 00 00 01 81 CD`
(`decode_int("567890000") = 98765 = 0x0181CD`). -/
theorem claim6_calculateP :
    calculateP 0 "0123456789".toList [0xFA, 0x33, 0x0A, 0x73]
        "567890000".toList
      = .ok [0xFA, 0x33, 0x0A, 0x73, 0, 0, 0, 0, 0, 0, 0, 0, 0,
          0x01, 0x81, 0xCD] := rfl

/-- C7: for every valid cipher instance and every in-range string over the
alphabet, both `encrypt` and `decrypt` succeed, preserve the length, and
output only characters of the configured alphabet; the AES block function is
arbitrary. -/
theorem claim7_length_alphabet (c : FF3Cipher) (s : List Char) (tb : List Nat)
    (hnd : c.alphabet.Nodup) (hra : c.alphabet.length = c.radix)
    (hr2 : 2 ≤ c.radix) (hrmax : c.radix ≤ MAX_RADIX)
    (hml : minlen_and_maxlen c.radix = (c.minLen, c.maxLen))
    (htw : fromHex c.tweak = some tb)
    (htl : tb.length = TWEAK_LEN ∨ tb.length = TWEAK_LEN_NEW)
    (hchars : ∀ ch ∈ s, ch ∈ c.alphabet)
    (hmin : c.minLen ≤ s.length) (hmax2 : s.length ≤ c.maxLen) :
    (∃ ct, c.encrypt s = .ok ct ∧ ct.length = s.length ∧
      ∀ ch ∈ ct, ch ∈ c.alphabet) ∧
    (∃ pt, c.decrypt s = .ok pt ∧ pt.length = s.length ∧
      ∀ ch ∈ pt, ch ∈ c.alphabet) := by
  constructor
  · obtain ⟨ct, henc, hlen, hmem, _⟩ :=
      engine_ok c s c.tweak tb hnd hra hr2 hrmax hml htw htl hchars hmin hmax2
    exact ⟨ct, henc, hlen, hmem⟩
  · obtain ⟨pt, hdec, hlen, hmem⟩ :=
      engine_dec_ok c s c.tweak tb hnd hra hr2 hrmax hml htw htl hchars hmin
        hmax2
    exact ⟨pt, hdec, hlen, hmem⟩

/-- Witness for C7 at a concrete instance and input. -/
theorem claim7_length_alphabet_witness :
    (∃ ct, sampleCipher.encrypt "890121234567890000".toList = .ok ct ∧
      ct.length = ("890121234567890000".toList).length ∧
      ∀ ch ∈ ct, ch ∈ sampleCipher.alphabet) ∧
    (∃ pt, sampleCipher.decrypt "890121234567890000".toList = .ok pt ∧
      pt.length = ("890121234567890000".toList).length ∧
      ∀ ch ∈ pt, ch ∈ sampleCipher.alphabet) :=
  claim7_length_alphabet sampleCipher "890121234567890000".toList
    [0xD8, 0xE7, 0x92, 0x0A, 0xFA, 0x33, 0x0A, 0x73]
    (by decide) (by decide) (by decide) (by decide) mml10 (by decide)
    (by decide) (by decide) (by decide) (by decide)

/-- C8: for a valid cipher instance whose stored tweak is a hex string of 7
or 8 bytes, `encrypt` raises an error if and only if the plaintext length is
below `minLen` or above `maxLen` or some plaintext character is not in the
alphabet (the character failure surfacing from `decode_int` inside round 0);
in the `Except` embedding an error excludes any result string by
construction. -/
theorem claim8_encrypt_error_iff (c : FF3Cipher) (pt : List Char)
    (tb : List Nat)
    (hnd : c.alphabet.Nodup) (hra : c.alphabet.length = c.radix)
    (hr2 : 2 ≤ c.radix) (hrmax : c.radix ≤ MAX_RADIX)
    (hml : minlen_and_maxlen c.radix = (c.minLen, c.maxLen))
    (htw : fromHex c.tweak = some tb)
    (htl : tb.length = TWEAK_LEN ∨ tb.length = TWEAK_LEN_NEW) :
    (∃ e, c.encrypt pt = .error e) ↔
      (pt.length < c.minLen ∨ c.maxLen < pt.length ∨
        ∃ ch ∈ pt, ch ∉ c.alphabet) := by
  constructor
  · rintro ⟨e, he⟩
    by_contra hcon
    push_neg at hcon
    obtain ⟨h1, h2, h3⟩ := hcon
    obtain ⟨ct, henc, _, _, _⟩ :=
      engine_ok c pt c.tweak tb hnd hra hr2 hrmax hml htw htl h3 h1 h2
    have he2 : c.encrypt_with_tweak pt c.tweak = .error e := he
    rw [henc] at he2
    simp at he2
  · intro h
    by_cases hlen : pt.length < c.minLen ∨ c.maxLen < pt.length
    · exact ⟨Err.msgLen, encrypt_badlen htw hlen⟩
    · push_neg at hlen
      have hbadc : ¬ ∀ ch ∈ pt, ch ∈ c.alphabet := by
        rcases h with h | h | h
        · have := hlen.1
          omega
        · have := hlen.2
          omega
        · intro hall
          obtain ⟨ch, hch, hni⟩ := h
          exact hni (hall ch hch)
      exact ⟨Err.charNotInAlphabet,
        encrypt_badchar c pt c.tweak tb hra hr2 hrmax hml htw htl hlen.1
          hlen.2 hbadc⟩

/-- Witness for C8 at a concrete instance and an in-alphabet input. -/
theorem claim8_encrypt_error_iff_witness :
    (∃ e, sampleCipher.encrypt "890121234567890000".toList = .error e) ↔
      (("890121234567890000".toList).length < sampleCipher.minLen ∨
        sampleCipher.maxLen < ("890121234567890000".toList).length ∨
        ∃ ch ∈ "890121234567890000".toList, ch ∉ sampleCipher.alphabet) :=
  claim8_encrypt_error_iff sampleCipher "890121234567890000".toList
    [0xD8, 0xE7, 0x92, 0x0A, 0xFA, 0x33, 0x0A, 0x73]
    (by decide) (by decide) (by decide) (by decide) mml10 (by decide)
    (by decide)

/-- C9 counterexample: the claimed bound `radix ^ maxLen ≤ 2^96 * radix`
fails already at radix 2, where `minlen_and_maxlen` returns
`(20, 192)` and `2^192 > 2^97`. -/
theorem claim9_counterexample :
    minlen_and_maxlen 2 = (20, 192) ∧ ¬ ((2 : Nat) ^ 192 ≤ 2 ^ 96 * 2) :=
  ⟨mml2, by norm_num⟩

/-- C9 amended: for each radix in `{2, 3, 10, 16, 26, 36, 62}`,
`minlen_and_maxlen` returns exactly `(⌈log_radix 10^6⌉, 2·⌊log_radix 2^96⌋)`
(stated through the characterizing inequalities), `radix ^ minLen ≥ 10^6`
holds, and the bound that the formulas actually guarantee is
`radix ^ (maxLen / 2) ≤ 2^96` (equivalently `radix ^ maxLen ≤ 2^192`), not
`radix ^ maxLen ≤ 2^96 · radix`. -/
theorem claim9_minlen_maxlen :
    (minlen_and_maxlen 2 = (20, 192) ∧ 1000000 ≤ 2 ^ 20 ∧ 2 ^ 19 < 1000000 ∧
      (2 : Nat) ^ (192 / 2) ≤ 2 ^ 96 ∧ (2 : Nat) ^ 96 < 2 ^ (192 / 2 + 1)) ∧
    (minlen_and_maxlen 3 = (13, 120) ∧ 1000000 ≤ 3 ^ 13 ∧ 3 ^ 12 < 1000000 ∧
      (3 : Nat) ^ (120 / 2) ≤ 2 ^ 96 ∧ (2 : Nat) ^ 96 < 3 ^ (120 / 2 + 1)) ∧
    (minlen_and_maxlen 10 = (6, 56) ∧ 1000000 ≤ 10 ^ 6 ∧ 10 ^ 5 < 1000000 ∧
      (10 : Nat) ^ (56 / 2) ≤ 2 ^ 96 ∧ (2 : Nat) ^ 96 < 10 ^ (56 / 2 + 1)) ∧
    (minlen_and_maxlen 16 = (5, 48) ∧ 1000000 ≤ 16 ^ 5 ∧ 16 ^ 4 < 1000000 ∧
      (16 : Nat) ^ (48 / 2) ≤ 2 ^ 96 ∧ (2 : Nat) ^ 96 < 16 ^ (48 / 2 + 1)) ∧
    (minlen_and_maxlen 26 = (5, 40) ∧ 1000000 ≤ 26 ^ 5 ∧ 26 ^ 4 < 1000000 ∧
      (26 : Nat) ^ (40 / 2) ≤ 2 ^ 96 ∧ (2 : Nat) ^ 96 < 26 ^ (40 / 2 + 1)) ∧
    (minlen_and_maxlen 36 = (4, 36) ∧ 1000000 ≤ 36 ^ 4 ∧ 36 ^ 3 < 1000000 ∧
      (36 : Nat) ^ (36 / 2) ≤ 2 ^ 96 ∧ (2 : Nat) ^ 96 < 36 ^ (36 / 2 + 1)) ∧
    (minlen_and_maxlen 62 = (4, 32) ∧ 1000000 ≤ 62 ^ 4 ∧ 62 ^ 3 < 1000000 ∧
      (62 : Nat) ^ (32 / 2) ≤ 2 ^ 96 ∧ (2 : Nat) ^ 96 < 62 ^ (32 / 2 + 1)) :=
  ⟨⟨mml2, by norm_num, by norm_num, by norm_num, by norm_num⟩,
   ⟨mml3, by norm_num, by norm_num, by norm_num, by norm_num⟩,
   ⟨mml10, by norm_num, by norm_num, by norm_num, by norm_num⟩,
   ⟨mml16, by norm_num, by norm_num, by norm_num, by norm_num⟩,
   ⟨mml26, by norm_num, by norm_num, by norm_num, by norm_num⟩,
   ⟨mml36, by norm_num, by norm_num, by norm_num, by norm_num⟩,
   ⟨mml62, by norm_num, by norm_num, by norm_num, by norm_num⟩⟩

/-- C10: construction never inspects the tweak: whenever the validator and
the key checks accept, `FF3Cipher.init` succeeds for EVERY tweak string
(hex or not, of any length) and stores it verbatim; and at call time the
message-length check precedes the tweak-length check, so an out-of-range
message yields the message-length error even when the tweak has an invalid
byte length (both for `encrypt_with_tweak` and `decrypt_with_tweak`). -/
theorem claim10_tweak_lazy
    (aesNew : List Nat → List Nat → List Nat) (key : List Char)
    (r : Option Nat) (a : Option (List Char)) (R : Nat) (A : List Char)
    (kb : List Nat)
    (hval : validate_radix_and_alphabet r a = .ok (R, A))
    (hkey : fromHex key = some kb)
    (hklen : kb.length = 16 ∨ kb.length = 24 ∨ kb.length = 32) :
    (∀ tweak : List Char,
      (FF3Cipher.init aesNew key tweak r a).map FF3Cipher.tweak
        = .ok tweak) ∧
    (∀ (c : FF3Cipher) (pt tw : List Char) (tb : List Nat),
      fromHex tw = some tb →
      (pt.length < c.minLen ∨ c.maxLen < pt.length) →
      c.encrypt_with_tweak pt tw = .error Err.msgLen ∧
        c.decrypt_with_tweak pt tw = .error Err.msgLen) := by
  constructor
  · intro tweak
    rw [init_ok hval hkey hklen tweak]
    rfl
  · intro c pt tw tb htw hlen
    exact ⟨encrypt_badlen htw hlen, decrypt_badlen htw hlen⟩

/-- Witness for C10: a non-hex tweak is stored untouched at construction,
and a 1-byte (invalid-length) tweak still yields the message-length error on
a too-short message. -/
theorem claim10_tweak_lazy_witness :
    (FF3Cipher.init (fun _ b => b) "EF4359D8D580AA4F7F036D6F04FC6A94".toList
        "ZZ-not-hex".toList (some 10) none).map FF3Cipher.tweak
      = .ok "ZZ-not-hex".toList ∧
    sampleCipher.encrypt_with_tweak "123".toList "00".toList
      = .error Err.msgLen ∧
    sampleCipher.decrypt_with_tweak "123".toList "00".toList
      = .error Err.msgLen := by
  have h := claim10_tweak_lazy (fun _ b => b)
    "EF4359D8D580AA4F7F036D6F04FC6A94".toList (some 10) none 10
    (DEFAULT_ALPHABET.take 10)
    [0xEF, 0x43, 0x59, 0xD8, 0xD5, 0x80, 0xAA, 0x4F, 0x7F, 0x03, 0x6D, 0x6F,
      0x04, 0xFC, 0x6A, 0x94]
    rfl rfl (by decide)
  obtain ⟨hpart2a, hpart2b⟩ :=
    h.2 sampleCipher "123".toList "00".toList [0] rfl (Or.inl (by decide))
  exact ⟨h.1 "ZZ-not-hex".toList, hpart2a, hpart2b⟩

end FF3
